import Mathlib

/-!
Shallow embedding of the `ini_manager` single-header INI library
(`include/ini_manager/ini_manager.hpp`): the trim helper, the two-level
section/key/value store backed by sorted association lists (modelling
`std::map`), the line-oriented parser, the serializer, the typed accessors,
and the file-level operations.  Text is modelled as `List Char`; machine
streams are modelled as pure character lists.
-/

namespace Ini

/-- Whitespace set used by `ini::trim` in the source: `" \t\r\n"`. -/
def wsp (c : Char) : Bool :=
  c == ' ' || c == '\t' || c == '\r' || c == '\n'

/-- Leading-whitespace removal, the `find_first_not_of` half of `ini::trim`. -/
def trimL (s : List Char) : List Char :=
  s.dropWhile wsp

/-- Trailing-whitespace removal, the `find_last_not_of` half of `ini::trim`. -/
def trimR (s : List Char) : List Char :=
  (s.reverse.dropWhile wsp).reverse

/-- Embedding of `ini::trim`: strip leading and trailing `" \t\r\n"`. -/
def trim (s : List Char) : List Char :=
  trimR (trimL s)

/-- Lookup in an association list, modelling `std::map::find` (keys of a
`std::map` are unique, so first-match lookup agrees with map lookup). -/
def mapFind {α : Type} (k : List Char) : List (List Char × α) → Option α
  | [] => none
  | p :: rest => if p.1 = k then some p.2 else mapFind k rest

/-- Modelling `std::map::contains`. -/
def mapContains {α : Type} (k : List Char) (m : List (List Char × α)) : Bool :=
  (mapFind k m).isSome

/-- Lexicographic byte comparison of strings, modelling `std::string`
`operator<` (the `std::map` key order). -/
def ltChars : List Char → List Char → Bool
  | [], [] => false
  | [], _ :: _ => true
  | _ :: _, [] => false
  | a :: as, b :: bs => if a < b then true else if b < a then false else ltChars as bs

/-- Insert-or-assign at the sorted position, modelling `std::map::operator[]`
followed by assignment. -/
def mapInsert {α : Type} (k : List Char) (v : α) :
    List (List Char × α) → List (List Char × α)
  | [] => [(k, v)]
  | p :: rest =>
    if ltChars k p.1 then (k, v) :: p :: rest
    else if p.1 = k then (k, v) :: rest
    else p :: mapInsert k v rest

/-- Erase the entry of a key (if present) in place, modelling
`std::map::erase`. -/
def mapErase {α : Type} (k : List Char) :
    List (List Char × α) → List (List Char × α)
  | [] => []
  | p :: rest => if p.1 = k then rest else p :: mapErase k rest

/-- Inner map of one section: key name to value. -/
abbrev Sect : Type := List (List Char × List Char)

/-- The two-level data map `std::map<std::string, std::map<std::string, std::string>>`. -/
abbrev Store : Type := List (List Char × Sect)

/-- Embedding of `ini_manager::get_value` (string version): section lookup then
key lookup, `std::nullopt` when either is absent. -/
def get_value (sec k : List Char) (st : Store) : Option (List Char) :=
  (mapFind sec st).bind (fun es => mapFind k es)

/-- Embedding of `ini_manager::set_value` (the stored string after
`std::format`): `(*m_data)[section][key] = value`. -/
def set_value (sec k v : List Char) (st : Store) : Store :=
  mapInsert sec (mapInsert k v ((mapFind sec st).getD [])) st

/-- Embedding of `ini_manager::set_section`: create an empty section only if
absent, otherwise do nothing. -/
def set_section (sec : List Char) (st : Store) : Store :=
  if mapContains sec st then st else mapInsert sec [] st

/-- Embedding of `ini_manager::remove_value`: find the section, erase the key
from its inner map in place, report whether one element was erased. -/
def remove_value (sec k : List Char) : Store → Bool × Store
  | [] => (false, [])
  | p :: rest =>
    if p.1 = sec then (mapContains k p.2, (p.1, mapErase k p.2) :: rest)
    else
      let r := remove_value sec k rest
      (r.1, p :: r.2)

/-- Embedding of `ini_manager::remove_section`: erase the section entry,
report whether one element was erased. -/
def remove_section (sec : List Char) (st : Store) : Bool × Store :=
  (mapContains sec st, mapErase sec st)

/-- Embedding of `ini_manager::get_keys`: key names of one section, empty when
the section is absent. -/
def get_keys (sec : List Char) (st : Store) : List (List Char) :=
  ((mapFind sec st).getD []).map (fun p => p.1)

/-- State of the parser loop: the optional current section plus the store. -/
structure ParseState where
  cur : Option (List Char)
  store : Store

/-- Split a character stream into `std::getline` lines: each `'\n'` terminates
a line (and is consumed); a final unterminated line is still produced; empty
input produces no lines. -/
def splitLines : List Char → List (List Char)
  | [] => []
  | c :: cs =>
    if c = '\n' then [] :: splitLines cs
    else
      match splitLines cs with
      | [] => [[c]]
      | l :: ls => (c :: l) :: ls

/-- The section name computed for a header line `t` (already trimmed, starting
with `'['` and ending with `']'`): empty for `"[]"`, otherwise the trimmed
text between the brackets. -/
def headerName (t : List Char) : List Char :=
  if t.length < 3 then [] else trim ((t.drop 1).dropLast)

/-- The recording step for a split key-value line: the pair is stored only
when a current section exists and the trimmed key is nonempty. -/
def recordPair (ps : ParseState) (key value : List Char) : ParseState :=
  match ps.cur with
  | none => ps
  | some sec =>
    if key = [] then ps else { ps with store := set_value sec key value ps.store }

/-- Embedding of one iteration of the loop in `ini_manager::parse`: trim the
line, skip empty lines and comments, handle `[section]` headers, then split a
key-value line at the first `'='`. -/
def parseLine (ps : ParseState) (line : List Char) : ParseState :=
  let t := trim line
  if t = [] then ps
  else if t.head? = some ';' ∨ t.head? = some '#' then ps
  else if t.head? = some '[' ∧ t.getLast? = some ']' then
    { cur := some (headerName t), store := set_section (headerName t) ps.store }
  else if ('=') ∈ t then
    recordPair ps (trim (t.takeWhile (fun c => c != '=')))
      (trim ((t.dropWhile (fun c => c != '=')).drop 1))
  else ps

/-- Fold of `parseLine` over a list of lines. -/
def parseLines (ps : ParseState) (ls : List (List Char)) : ParseState :=
  ls.foldl parseLine ps

/-- Embedding of `ini_manager::parse` on an in-memory text: split into lines
and run the parser loop, starting with no current section. -/
def parseStore (text : List Char) (st : Store) : Store :=
  (parseLines { cur := none, store := st } (splitLines text)).store

/-- Error values produced by the library (`std::error_code` payloads):
the distinct invalid-operation-state value
`std::errc::operation_not_permitted` of the generic category, and an I/O
error carrying an `errno` of the system category. -/
inductive IniErr where
  | opNotPermitted : IniErr
  | ioError : Nat → IniErr
deriving DecidableEq

/-- Embedding of `ini_manager::parse` including its result channel.  The
source returns an error only when the stream read itself fails
(`fail() && !eof()`, or `bad()`); reading an in-memory text without an I/O
failure never sets those bits, so the embedded parse always succeeds. -/
def parseE (text : List Char) (st : Store) : Except IniErr Store :=
  Except.ok (parseStore text st)

/-- The serialized `key = value` content of one pair (without the newline). -/
def pairLine (kv : List Char × List Char) : List Char :=
  kv.1 ++ ' ' :: '=' :: ' ' :: kv.2

/-- One `key = value` output line of `ini_manager::write`, newline included. -/
def writePair (kv : List Char × List Char) : List Char :=
  pairLine kv ++ ['\n']

/-- The serialized `[section]` header content (without the newline). -/
def headerLine (sec : List Char) : List Char :=
  '[' :: sec ++ [']']

/-- One section block of `ini_manager::write`: header line, one line per pair,
one blank line. -/
def writeSectionBlock (se : List Char × Sect) : List Char :=
  headerLine se.1 ++ '\n' :: (((se.2.map writePair).flatten) ++ ['\n'])

/-- Embedding of `ini_manager::write`: concatenated section blocks in map
order. -/
def write (st : Store) : List Char :=
  (st.map writeSectionBlock).flatten

/-- The observable state of an `ini_manager`: its data map and its remembered
file path `m_file_path`. -/
structure Manager where
  store : Store
  filePath : List Char

/-- Embedding of the argument-less `ini_manager::write_file()`.  The file
system is abstracted by `openFails`/`errno`; on success the written text is
returned in place of the file.  The method is `const`, so the manager is
returned unchanged. -/
def write_file_noarg (m : Manager) (openFails : Bool) (errno : Nat) :
    Except IniErr (List Char) × Manager :=
  if m.filePath = [] then (Except.error IniErr.opNotPermitted, m)
  else if openFails then (Except.error (IniErr.ioError errno), m)
  else (Except.ok (write m.store), m)

/-- Embedding of `ini_manager::load_file`: the data map is replaced by a fresh
empty map and `m_file_path` is set to the given path before the open attempt;
the file is abstracted as `content` (`none` models an open failure with the
given `errno`). -/
def load_file (m : Manager) (path : List Char) (content : Option (List Char))
    (errno : Nat) : Manager × Except IniErr Unit :=
  match content with
  | none => ({ store := [], filePath := path }, Except.error (IniErr.ioError errno))
  | some text => ({ store := parseStore text [], filePath := path }, Except.ok ())

/-- ASCII lowercasing of one character, modelling `::tolower` in the default
locale (`'A'`–`'Z'` only). -/
def lowerAscii (c : Char) : Char :=
  if 'A' ≤ c ∧ c ≤ 'Z' then Char.ofNat (c.toNat + 32) else c

/-- The normalization `ini_manager::get_value<bool>` applies to the stored
string before comparing: lowercase every character, then trim. -/
def lowTrim (s : List Char) : List Char :=
  trim (s.map lowerAscii)

/-- The literal `"true"`. -/
def trueChars : List Char := ['t', 'r', 'u', 'e']

/-- The literal `"1"`. -/
def oneChars : List Char := ['1']

/-- The literal `"false"`. -/
def falseChars : List Char := ['f', 'a', 'l', 's', 'e']

/-- The literal `"0"`. -/
def zeroChars : List Char := ['0']

/-- Embedding of the `bool` specialization of `ini_manager::get_value<T>`. -/
def get_value_bool (sec k : List Char) (st : Store) : Option Bool :=
  match get_value sec k st with
  | none => none
  | some s =>
    let l := lowTrim s
    if l = trueChars ∨ l = oneChars then some true
    else if l = falseChars ∨ l = zeroChars then some false
    else none

/-- Whitespace skipped by formatted stream extraction (`isspace` in the
default locale): space, `\t`, `\n`, `\v`, `\f`, `\r`. -/
def streamWsp (c : Char) : Bool :=
  c == ' ' || c == '\t' || c == '\n' || c == '\x0B' || c == '\x0C' || c == '\r'

/-- Numeric value of a decimal digit string. -/
def natOfDigits (ds : List Char) : Nat :=
  ds.foldl (fun a c => a * 10 + (c.toNat - 48)) 0

/-- Digit-run extraction of `std::num_get` after the optional sign: consume
the maximal digit prefix, fail when it is empty, and return the unconsumed
remainder of the stream. -/
def extractDigits (l : List Char) (neg : Bool) : Option (Int × List Char) :=
  let ds := l.takeWhile Char.isDigit
  if ds = [] then none
  else
    some (if neg then -(natOfDigits ds : Int) else (natOfDigits ds : Int),
      l.dropWhile Char.isDigit)

/-- Embedding of `operator>>` into an `int` on an in-memory stream: skip
leading whitespace, read an optional sign and a nonempty digit run, and
return the extracted value together with the characters left unread.
Overflow is out of scope: the target is modelled as an unbounded integer. -/
def extractInt (s : List Char) : Option (Int × List Char) :=
  match s.dropWhile streamWsp with
  | [] => none
  | c :: r =>
    if c = '-' then extractDigits r true
    else if c = '+' then extractDigits r false
    else extractDigits (c :: r) false

/-- The acceptance check of the `StreamExtractable` branch: the extraction
must succeed and the stream must then be at end-of-file
(`(iss >> value) && iss.eof()`). -/
def consumeAll (r : Option (Int × List Char)) : Option Int :=
  match r with
  | none => none
  | some (v, rest) => if rest = [] then some v else none

/-- Embedding of the `StreamExtractable` branch of `ini_manager::get_value<T>`
at `T = int`. -/
def get_value_int (sec k : List Char) (st : Store) : Option Int :=
  (get_value sec k st).bind (fun s => consumeAll (extractInt s))

/-- Modelled from the spec: a conversion that consumes an entire string with
no leftover characters and no parse error, at the integer type — an optional
sign followed by a nonempty digit run reaching the very end of the string. -/
def fullInt (l : List Char) : Option Int :=
  match l with
  | [] => none
  | c :: r =>
    if c = '-' then
      if r ≠ [] ∧ r.all Char.isDigit then some (-(natOfDigits r : Int)) else none
    else if c = '+' then
      if r ≠ [] ∧ r.all Char.isDigit then some (natOfDigits r : Int) else none
    else if (c :: r).all Char.isDigit then some (natOfDigits (c :: r) : Int)
    else none

/-- The lines `ini_manager::write` emits for a store, with the trailing
newline of each line removed: per section a header line, one line per pair,
one blank line. -/
def blockLines (st : Store) : List (List Char) :=
  (st.map (fun se => headerLine se.1 :: (se.2.map pairLine ++ [[]]))).flatten

/-- Rebuild of an inner map by inserting its pairs in list order into an
empty map (what re-parsing a serialized section does to its pairs). -/
def insertAll (es : Sect) : Sect :=
  es.foldl (fun m kv => mapInsert kv.1 kv.2 m) []

/-- A name whose first and last characters are not trim whitespace (so the
name is its own trim) and which contains no newline. -/
def cleanName (s : List Char) : Bool :=
  s.head?.all (fun c => !wsp c) && s.getLast?.all (fun c => !wsp c) &&
    !(decide (('\n') ∈ s))

/-- A key the serializer can round-trip: nonempty, its own trim, newline-free,
`'='`-free, and not starting a comment. -/
def cleanKey (k : List Char) : Bool :=
  !(decide (k = [])) && cleanName k && !(decide (('=') ∈ k)) &&
    !(decide (k.head? = some ';')) && !(decide (k.head? = some '#'))

/-- A pair the serializer can round-trip: clean key, clean value, and the
emitted line must not look like a `[section]` header. -/
def cleanPair (kv : List Char × List Char) : Bool :=
  cleanKey kv.1 && cleanName kv.2 &&
    !(decide (kv.1.head? = some '[' ∧ kv.2.getLast? = some ']'))

/-- A store all of whose section names and pairs are round-trippable. -/
def cleanStore (st : Store) : Bool :=
  st.all (fun se => cleanName se.1 && se.2.all cleanPair)

/-- Distinctness of the keys of an association list (an invariant of every
`std::map`). -/
def nodupKeys {α : Type} : List (List Char × α) → Bool
  | [] => true
  | p :: rest => rest.all (fun q => !(decide (q.1 = p.1))) && nodupKeys rest

/-- Well-formedness of the two-level map as a `std::map` of `std::map`s:
distinct section names and, inside each section, distinct keys. -/
def storeWF (st : Store) : Bool :=
  nodupKeys st && st.all (fun se => nodupKeys se.2)

/-- Strict sortedness of an association list by the `std::map` key order. -/
def SortedMap {α : Type} (m : List (List Char × α)) : Prop :=
  m.Pairwise (fun a b => ltChars a.1 b.1 = true)

/-- The stores reachable from the empty store using `set_value` only. -/
inductive Built : Store → Prop
  | nil : Built []
  | step (sec k v : List Char) (st : Store) : Built st → Built (set_value sec k v st)

section LtCharsLemmas

theorem ltChars_irrefl (a : List Char) : ltChars a a = false := by
  induction a with
  | nil => rfl
  | cons x xs ih =>
    simp only [ltChars, if_neg (lt_irrefl x)]
    exact ih

theorem ne_of_ltChars {a b : List Char} (h : ltChars a b = true) : a ≠ b := by
  intro he
  subst he
  rw [ltChars_irrefl] at h
  exact Bool.noConfusion h

theorem ltChars_trans : ∀ {a b c : List Char},
    ltChars a b = true → ltChars b c = true → ltChars a c = true := by
  intro a
  induction a with
  | nil =>
    intro b c hab hbc
    cases b with
    | nil => simp [ltChars] at hab
    | cons y ys =>
      cases c with
      | nil => simp [ltChars] at hbc
      | cons z zs => simp [ltChars]
  | cons x xs ih =>
    intro b c hab hbc
    cases b with
    | nil => simp [ltChars] at hab
    | cons y ys =>
      cases c with
      | nil => simp [ltChars] at hbc
      | cons z zs =>
        simp only [ltChars] at hab hbc ⊢
        rcases lt_trichotomy x y with hxy | hxy | hxy
        · rcases lt_trichotomy y z with hyz | hyz | hyz
          · rw [if_pos (lt_trans hxy hyz)]
          · subst hyz
            rw [if_pos hxy]
          · rw [if_neg (lt_asymm hyz), if_pos hyz] at hbc
            exact Bool.noConfusion hbc
        · subst hxy
          rw [if_neg (lt_irrefl x), if_neg (lt_irrefl x)] at hab
          rcases lt_trichotomy x z with hxz | hxz | hxz
          · rw [if_pos hxz]
          · subst hxz
            rw [if_neg (lt_irrefl x), if_neg (lt_irrefl x)] at hbc ⊢
            exact ih hab hbc
          · rw [if_neg (lt_asymm hxz), if_pos hxz] at hbc
            exact Bool.noConfusion hbc
        · rw [if_neg (lt_asymm hxy), if_pos hxy] at hab
          exact Bool.noConfusion hab

theorem ltChars_of_not_of_ne : ∀ {a b : List Char},
    ltChars a b = false → a ≠ b → ltChars b a = true := by
  intro a
  induction a with
  | nil =>
    intro b hab hne
    cases b with
    | nil => exact absurd rfl hne
    | cons y ys => simp [ltChars] at hab
  | cons x xs ih =>
    intro b hab hne
    cases b with
    | nil => simp [ltChars]
    | cons y ys =>
      simp only [ltChars] at hab ⊢
      rcases lt_trichotomy x y with hxy | hxy | hxy
      · rw [if_pos hxy] at hab
        exact Bool.noConfusion hab
      · subst hxy
        rw [if_neg (lt_irrefl x), if_neg (lt_irrefl x)] at hab ⊢
        have hne2 : xs ≠ ys := by
          intro hh
          exact hne (by rw [hh])
        exact ih hab hne2
      · rw [if_pos hxy]

end LtCharsLemmas

section MapLemmas

variable {α : Type}

theorem mapFind_nil (k : List Char) : mapFind (α := α) k [] = none := rfl

theorem mapFind_cons (k : List Char) (p : List Char × α) (rest : List (List Char × α)) :
    mapFind k (p :: rest) = if p.1 = k then some p.2 else mapFind k rest := rfl

theorem mapFind_mapInsert_self (k : List Char) (v : α) (m : List (List Char × α)) :
    mapFind k (mapInsert k v m) = some v := by
  induction m with
  | nil => simp [mapInsert, mapFind]
  | cons p rest ih =>
    simp only [mapInsert]
    by_cases h1 : ltChars k p.1 = true
    · rw [if_pos h1]
      simp [mapFind]
    · rw [if_neg h1]
      by_cases h2 : p.1 = k
      · rw [if_pos h2]
        simp [mapFind]
      · rw [if_neg h2]
        simp only [mapFind]
        rw [if_neg h2]
        exact ih

theorem mapFind_mapInsert_ne {k k' : List Char} (v : α) (m : List (List Char × α))
    (h : k' ≠ k) : mapFind k' (mapInsert k v m) = mapFind k' m := by
  have hk : ¬ (k = k') := fun hh => h hh.symm
  induction m with
  | nil =>
    simp only [mapInsert, mapFind]
    rw [if_neg hk]
  | cons p rest ih =>
    simp only [mapInsert]
    by_cases h1 : ltChars k p.1 = true
    · rw [if_pos h1]
      simp only [mapFind]
      rw [if_neg hk]
    · rw [if_neg h1]
      by_cases h2 : p.1 = k
      · rw [if_pos h2]
        have hp : ¬ (p.1 = k') := by
          rw [h2]
          exact hk
        simp only [mapFind]
        rw [if_neg hk, if_neg hp]
      · rw [if_neg h2]
        simp only [mapFind]
        by_cases h3 : p.1 = k'
        · rw [if_pos h3, if_pos h3]
        · rw [if_neg h3, if_neg h3]
          exact ih

theorem mem_mapInsert {k : List Char} {v : α} {m : List (List Char × α)}
    {x : List Char × α} (hx : x ∈ mapInsert k v m) : x = (k, v) ∨ x ∈ m := by
  induction m with
  | nil =>
    simp only [mapInsert] at hx
    exact Or.inl (by simpa using hx)
  | cons p rest ih =>
    simp only [mapInsert] at hx
    by_cases h1 : ltChars k p.1 = true
    · rw [if_pos h1] at hx
      rcases List.mem_cons.mp hx with h | h
      · exact Or.inl h
      · exact Or.inr h
    · rw [if_neg h1] at hx
      by_cases h2 : p.1 = k
      · rw [if_pos h2] at hx
        rcases List.mem_cons.mp hx with h | h
        · exact Or.inl h
        · exact Or.inr (List.mem_cons_of_mem p h)
      · rw [if_neg h2] at hx
        rcases List.mem_cons.mp hx with h | h
        · exact Or.inr (h ▸ List.mem_cons_self p rest)
        · rcases ih h with h' | h'
          · exact Or.inl h'
          · exact Or.inr (List.mem_cons_of_mem p h')

theorem mapInsert_ne_nil (k : List Char) (v : α) (m : List (List Char × α)) :
    mapInsert k v m ≠ [] := by
  cases m with
  | nil => simp [mapInsert]
  | cons p rest =>
    simp only [mapInsert]
    by_cases h1 : ltChars k p.1 = true
    · rw [if_pos h1]
      simp
    · rw [if_neg h1]
      by_cases h2 : p.1 = k
      · rw [if_pos h2]
        simp
      · rw [if_neg h2]
        simp

theorem mapContains_eq_isSome (k : List Char) (m : List (List Char × α)) :
    mapContains k m = (mapFind k m).isSome := rfl

theorem mapFind_eq_none_of_forall {k : List Char} {m : List (List Char × α)}
    (h : ∀ q ∈ m, q.1 ≠ k) : mapFind k m = none := by
  induction m with
  | nil => rfl
  | cons p rest ih =>
    simp only [mapFind]
    rw [if_neg (h p (List.mem_cons_self p rest))]
    exact ih (fun q hq => h q (List.mem_cons_of_mem p hq))

theorem mapErase_of_find_none {k : List Char} {m : List (List Char × α)}
    (h : mapFind k m = none) : mapErase k m = m := by
  induction m with
  | nil => rfl
  | cons p rest ih =>
    simp only [mapFind] at h
    by_cases h1 : p.1 = k
    · rw [if_pos h1] at h
      exact Option.noConfusion h
    · rw [if_neg h1] at h
      simp only [mapErase]
      rw [if_neg h1, ih h]

theorem mapFind_mapErase_ne {k k' : List Char} {m : List (List Char × α)}
    (h : k' ≠ k) : mapFind k' (mapErase k m) = mapFind k' m := by
  induction m with
  | nil => rfl
  | cons p rest ih =>
    simp only [mapErase]
    by_cases h1 : p.1 = k
    · have hp : ¬ (p.1 = k') := by
        rw [h1]
        exact fun hh => h hh.symm
      simp only [mapFind]
      rw [if_pos h1, if_neg hp]
    · rw [if_neg h1]
      simp only [mapFind]
      by_cases h3 : p.1 = k'
      · rw [if_pos h3, if_pos h3]
      · rw [if_neg h3, if_neg h3]
        exact ih

theorem mapFind_mapErase_self {k : List Char} {m : List (List Char × α)}
    (hm : m.Pairwise (fun a b => a.1 ≠ b.1)) : mapFind k (mapErase k m) = none := by
  induction m with
  | nil => rfl
  | cons p rest ih =>
    rcases List.pairwise_cons.mp hm with ⟨hp, hrest⟩
    simp only [mapErase]
    by_cases h1 : p.1 = k
    · rw [if_pos h1]
      exact mapFind_eq_none_of_forall (fun q hq => by
        intro hqk
        exact hp q hq (by rw [h1, hqk]))
    · rw [if_neg h1]
      simp only [mapFind]
      rw [if_neg h1]
      exact ih hrest

end MapLemmas

section SortedLemmas

theorem mapInsert_sorted {α : Type} {k : List Char} {v : α}
    {m : List (List Char × α)} (hm : SortedMap m) : SortedMap (mapInsert k v m) := by
  induction m with
  | nil => simp [SortedMap, mapInsert]
  | cons p rest ih =>
    rcases List.pairwise_cons.mp hm with ⟨hp, hrest⟩
    simp only [SortedMap, mapInsert]
    by_cases h1 : ltChars k p.1 = true
    · rw [if_pos h1]
      refine List.pairwise_cons.mpr ⟨?_, hm⟩
      intro q hq
      rcases List.mem_cons.mp hq with hq | hq
      · subst hq
        exact h1
      · exact ltChars_trans h1 (hp q hq)
    · rw [if_neg h1]
      by_cases h2 : p.1 = k
      · rw [if_pos h2]
        refine List.pairwise_cons.mpr ⟨?_, hrest⟩
        intro q hq
        exact h2 ▸ hp q hq
      · rw [if_neg h2]
        refine List.pairwise_cons.mpr ⟨?_, ih hrest⟩
        intro q hq
        rcases mem_mapInsert hq with hq | hq
        · subst hq
          exact ltChars_of_not_of_ne (Bool.eq_false_iff.mpr h1) (fun hh => h2 hh.symm)
        · exact hp q hq

theorem SortedMap.nodup {α : Type} {m : List (List Char × α)} (hm : SortedMap m) :
    m.Pairwise (fun a b => a.1 ≠ b.1) :=
  hm.imp (fun h => ne_of_ltChars h)

end SortedLemmas

section TrimLemmas

theorem trimL_eq_self {l : List Char} (h : l.head?.all (fun c => !wsp c) = true) :
    trimL l = l := by
  cases l with
  | nil => rfl
  | cons c cs =>
    have hc : wsp c = false := by simpa using h
    simp [trimL, List.dropWhile_cons, hc]

theorem trimR_eq_self {l : List Char} (h : l.getLast?.all (fun c => !wsp c) = true) :
    trimR l = l := by
  cases hrev : l.reverse with
  | nil =>
    have : l = [] := by simpa using congrArg List.reverse hrev
    subst this
    rfl
  | cons d ds =>
    have hd : l.getLast? = some d := by
      rw [← List.head?_reverse, hrev]
      rfl
    have hw : wsp d = false := by
      rw [hd] at h
      simpa using h
    have : (d :: ds).reverse = l := by
      rw [← hrev, List.reverse_reverse]
    simp [trimR, hrev, List.dropWhile_cons, hw, this]

theorem trim_eq_self {l : List Char} (h1 : l.head?.all (fun c => !wsp c) = true)
    (h2 : l.getLast?.all (fun c => !wsp c) = true) : trim l = l := by
  rw [trim, trimL_eq_self h1, trimR_eq_self h2]

theorem trimR_concat_of_wsp {c : Char} {l : List Char} (h : wsp c = true) :
    trimR (l ++ [c]) = trimR l := by
  simp [trimR, List.reverse_append, List.dropWhile_cons, h]

theorem trimR_concat_of_not_wsp {c : Char} {l : List Char} (h : wsp c = false) :
    trimR (l ++ [c]) = l ++ [c] := by
  simp [trimR, List.reverse_append, List.dropWhile_cons, h]

theorem trim_nil : trim [] = [] := rfl

theorem takeWhile_append_all {p : Char → Bool} {l m : List Char}
    (h : ∀ x ∈ l, p x = true) : (l ++ m).takeWhile p = l ++ m.takeWhile p := by
  have hl : l.takeWhile p = l := List.takeWhile_eq_self_iff.mpr h
  rw [List.takeWhile_append, if_pos (by rw [hl])]

theorem dropWhile_append_all {p : Char → Bool} {l m : List Char}
    (h : ∀ x ∈ l, p x = true) : (l ++ m).dropWhile p = m.dropWhile p := by
  have hl : l.dropWhile p = [] := List.dropWhile_eq_nil_iff.mpr h
  rw [List.dropWhile_append, if_pos (by rw [hl]; rfl)]

end TrimLemmas

section CleanLemmas

theorem cleanName_parts {s : List Char} (h : cleanName s = true) :
    s.head?.all (fun c => !wsp c) = true ∧ s.getLast?.all (fun c => !wsp c) = true ∧
      ('\n') ∉ s := by
  simp only [cleanName, Bool.and_eq_true, Bool.not_eq_true', decide_eq_false_iff_not] at h
  exact ⟨h.1.1, h.1.2, h.2⟩

theorem trim_eq_self_of_cleanName {s : List Char} (h : cleanName s = true) :
    trim s = s :=
  trim_eq_self (cleanName_parts h).1 (cleanName_parts h).2.1

theorem cleanKey_parts {k : List Char} (h : cleanKey k = true) :
    k ≠ [] ∧ cleanName k = true ∧ ('=') ∉ k ∧
      k.head? ≠ some ';' ∧ k.head? ≠ some '#' := by
  simp only [cleanKey, Bool.and_eq_true, Bool.not_eq_true', decide_eq_false_iff_not] at h
  exact ⟨h.1.1.1.1, h.1.1.1.2, h.1.1.2, h.1.2, h.2⟩

theorem cleanPair_parts {kv : List Char × List Char} (h : cleanPair kv = true) :
    cleanKey kv.1 = true ∧ cleanName kv.2 = true ∧
      ¬(kv.1.head? = some '[' ∧ kv.2.getLast? = some ']') := by
  simp only [cleanPair, Bool.and_eq_true, Bool.not_eq_true', decide_eq_false_iff_not] at h
  exact ⟨h.1.1, h.1.2, h.2⟩

theorem cleanStore_parts {st : Store} (h : cleanStore st = true) :
    ∀ se ∈ st, cleanName se.1 = true ∧ ∀ kv ∈ se.2, cleanPair kv = true := by
  intro se hse
  have := (List.all_eq_true.mp h) se hse
  simp only [Bool.and_eq_true] at this
  exact ⟨this.1, List.all_eq_true.mp this.2⟩

end CleanLemmas

section ParseLineLemmas

theorem recordPair_some (sec : List Char) (store : Store) (key value : List Char) :
    recordPair { cur := some sec, store := store } key value =
      if key = [] then ({ cur := some sec, store := store } : ParseState)
      else { cur := some sec, store := set_value sec key value store } := rfl

theorem recordPair_none (store : Store) (key value : List Char) :
    recordPair { cur := none, store := store } key value =
      { cur := none, store := store } := rfl

theorem parseLine_blank (ps : ParseState) : parseLine ps [] = ps := rfl

theorem parseLine_skip {line : List Char} (ps : ParseState)
    (h1 : trim line ≠ [])
    (h2 : (trim line).head? ≠ some ';') (h3 : (trim line).head? ≠ some '#')
    (h4 : ¬((trim line).head? = some '[' ∧ (trim line).getLast? = some ']'))
    (h5 : ('=') ∉ trim line) : parseLine ps line = ps := by
  simp only [parseLine]
  rw [if_neg h1, if_neg (not_or.mpr ⟨h2, h3⟩), if_neg h4, if_neg h5]

theorem getLast?_headerLine (sec : List Char) : (headerLine sec).getLast? = some ']' := by
  rw [headerLine, List.getLast?_concat]

theorem trim_headerLine {sec : List Char} (h : cleanName sec = true) :
    trim (headerLine sec) = headerLine sec := by
  apply trim_eq_self
  · rfl
  · rw [getLast?_headerLine]
    rfl

theorem headerName_headerLine {sec : List Char} (h : cleanName sec = true) :
    headerName (headerLine sec) = sec := by
  cases sec with
  | nil => rfl
  | cons c cs =>
    have hlen : ¬ ((headerLine (c :: cs)).length < 3) := by
      simp only [headerLine, List.length_cons, List.length_append, List.length_singleton]
      omega
    rw [headerName, if_neg hlen]
    have h1 : (headerLine (c :: cs)).drop 1 = (c :: cs) ++ [']'] := rfl
    rw [h1, List.dropLast_concat, trim_eq_self_of_cleanName h]

theorem parseLine_header {sec : List Char} (ps : ParseState) (h : cleanName sec = true) :
    parseLine ps (headerLine sec) =
      { cur := some sec, store := set_section sec ps.store } := by
  have hne : headerLine sec ≠ [] := by simp [headerLine]
  have hhead : (headerLine sec).head? = some '[' := rfl
  have hc1 : (headerLine sec).head? ≠ some ';' := by
    rw [hhead]
    decide
  have hc2 : (headerLine sec).head? ≠ some '#' := by
    rw [hhead]
    decide
  simp only [parseLine]
  rw [trim_headerLine h, if_neg hne, if_neg (not_or.mpr ⟨hc1, hc2⟩),
    if_pos ⟨hhead, getLast?_headerLine sec⟩, headerName_headerLine h]

theorem head?_pairLine {kv : List Char × List Char} (hne : kv.1 ≠ []) :
    (pairLine kv).head? = kv.1.head? := by
  rw [pairLine, List.head?_append_of_ne_nil _ hne]

theorem parseLine_pair {sec : List Char} (store : Store) (kv : List Char × List Char)
    (h : cleanPair kv = true) :
    parseLine { cur := some sec, store := store } (pairLine kv) =
      { cur := some sec, store := set_value sec kv.1 kv.2 store } := by
  obtain ⟨k, v⟩ := kv
  obtain ⟨hk, hv, hhd⟩ := cleanPair_parts h
  obtain ⟨hkne, hkname, hkeq, hks, hkh⟩ := cleanKey_parts hk
  obtain ⟨hkhead, hklast, hknl⟩ := cleanName_parts hkname
  have hkp : ∀ x ∈ k, (x != '=') = true := fun x hx =>
    bne_iff_ne.mpr (fun he => hkeq (he ▸ hx))
  have hkeytrim : trim (k ++ [' ']) = k := by
    rw [trim, trimL_eq_self (by rw [List.head?_append_of_ne_nil _ hkne]; exact hkhead),
      trimR_concat_of_wsp (by decide), trimR_eq_self hklast]
  cases v with
  | nil =>
    have hpl : pairLine (k, ([] : List Char)) = k ++ [' ', '=', ' '] := by
      simp [pairLine]
    have e1 : k ++ [' ', '=', ' '] = (k ++ [' ', '=']) ++ [' '] := by simp
    have e2 : k ++ [' ', '='] = (k ++ [' ']) ++ ['='] := by simp
    have htR2 : trimR (k ++ [' ', '=']) = k ++ [' ', '='] := by
      rw [e2, trimR_concat_of_not_wsp (by decide)]
    have htrim : trim (k ++ [' ', '=', ' ']) = k ++ [' ', '='] := by
      rw [trim, trimL_eq_self (by rw [List.head?_append_of_ne_nil _ hkne]; exact hkhead),
        e1, trimR_concat_of_wsp (by decide), htR2]
    have hne : k ++ [' ', '='] ≠ [] := by simp
    have hhead : (k ++ [' ', '=']).head? = k.head? := List.head?_append_of_ne_nil _ hkne
    have hlast : (k ++ [' ', '=']).getLast? = some '=' := by
      rw [e2, List.getLast?_concat]
    have hc1 : (k ++ [' ', '=']).head? ≠ some ';' := by
      rw [hhead]
      exact hks
    have hc2 : (k ++ [' ', '=']).head? ≠ some '#' := by
      rw [hhead]
      exact hkh
    have hnothdr : ¬((k ++ [' ', '=']).head? = some '[' ∧
        (k ++ [' ', '=']).getLast? = some ']') := by
      intro hc
      rw [hlast] at hc
      exact absurd hc.2 (by decide)
    have hmem : ('=') ∈ k ++ [' ', '='] := List.mem_append.mpr (Or.inr (by decide))
    have htake : (k ++ [' ', '=']).takeWhile (fun c => c != '=') = k ++ [' '] := by
      rw [takeWhile_append_all hkp]
      rfl
    have hdrop : (k ++ [' ', '=']).dropWhile (fun c => c != '=') = ['='] := by
      rw [dropWhile_append_all hkp]
      rfl
    simp only [parseLine, hpl, htrim]
    rw [if_neg hne, if_neg (not_or.mpr ⟨hc1, hc2⟩), if_neg hnothdr, if_pos hmem,
      htake, hkeytrim, hdrop]
    rw [recordPair_some, if_neg hkne]
    rfl
  | cons d ds =>
    obtain ⟨hvhead, hvlast, hvnl⟩ := cleanName_parts hv
    have hvne : d :: ds ≠ ([] : List Char) := by simp
    have hpl : pairLine (k, d :: ds) = k ++ ([' ', '=', ' '] ++ (d :: ds)) := by
      simp [pairLine]
    have hlast : (k ++ ([' ', '=', ' '] ++ (d :: ds))).getLast? = (d :: ds).getLast? := by
      rw [List.getLast?_append, List.getLast?_append]
      cases hgl : (d :: ds).getLast? with
      | none => exact absurd (List.getLast?_eq_none_iff.mp hgl) hvne
      | some x => rfl
    have hhead : (k ++ ([' ', '=', ' '] ++ (d :: ds))).head? = k.head? :=
      List.head?_append_of_ne_nil _ hkne
    have htrim : trim (k ++ ([' ', '=', ' '] ++ (d :: ds))) =
        k ++ ([' ', '=', ' '] ++ (d :: ds)) := by
      apply trim_eq_self
      · rw [hhead]
        exact hkhead
      · rw [hlast]
        exact hvlast
    have hne : k ++ ([' ', '=', ' '] ++ (d :: ds)) ≠ [] := by simp
    have hc1 : (k ++ ([' ', '=', ' '] ++ (d :: ds))).head? ≠ some ';' := by
      rw [hhead]
      exact hks
    have hc2 : (k ++ ([' ', '=', ' '] ++ (d :: ds))).head? ≠ some '#' := by
      rw [hhead]
      exact hkh
    have hnothdr : ¬((k ++ ([' ', '=', ' '] ++ (d :: ds))).head? = some '[' ∧
        (k ++ ([' ', '=', ' '] ++ (d :: ds))).getLast? = some ']') := by
      intro hc
      rw [hhead] at hc
      rw [hlast] at hc
      exact hhd ⟨hc.1, hc.2⟩
    have hmem : ('=') ∈ k ++ ([' ', '=', ' '] ++ (d :: ds)) :=
      List.mem_append.mpr (Or.inr (by simp))
    have htake : (k ++ ([' ', '=', ' '] ++ (d :: ds))).takeWhile (fun c => c != '=') =
        k ++ [' '] := by
      rw [takeWhile_append_all hkp]
      rfl
    have hdrop : (k ++ ([' ', '=', ' '] ++ (d :: ds))).dropWhile (fun c => c != '=') =
        '=' :: ' ' :: d :: ds := by
      rw [dropWhile_append_all hkp]
      rfl
    have hvaltrim : trim (' ' :: d :: ds) = d :: ds := by
      have : trimL (' ' :: d :: ds) = d :: ds := by
        have hd : wsp d = false := by simpa using hvhead
        have hsp : wsp ' ' = true := by decide
        simp [trimL, List.dropWhile_cons, hsp, hd]
      rw [trim, this, trimR_eq_self hvlast]
    simp only [parseLine, hpl, htrim]
    rw [if_neg hne, if_neg (not_or.mpr ⟨hc1, hc2⟩), if_neg hnothdr, if_pos hmem,
      htake, hkeytrim, hdrop]
    have hdone : trim (('=' :: ' ' :: d :: ds).drop 1) = d :: ds := by
      rw [List.drop_one, List.tail_cons, hvaltrim]
    rw [hdone, recordPair_some, if_neg hkne]

end ParseLineLemmas

section SplitLinesLemmas

theorem splitLines_append_newline {l rest : List Char} (h : ('\n') ∉ l) :
    splitLines (l ++ '\n' :: rest) = l :: splitLines rest := by
  induction l with
  | nil => simp [splitLines]
  | cons c cs ih =>
    have hc : c ≠ '\n' := fun he => h (he ▸ List.mem_cons_self c cs)
    have hmem : ('\n') ∉ cs := fun hm => h (List.mem_cons_of_mem c hm)
    simp only [List.cons_append, splitLines, List.append_eq]
    rw [if_neg hc, ih hmem]

theorem headerLine_no_nl {sec : List Char} (h : cleanName sec = true) :
    ('\n') ∉ headerLine sec := by
  have hnl := (cleanName_parts h).2.2
  intro hm
  rw [headerLine] at hm
  rcases List.mem_append.mp hm with hm | hm
  · rcases List.mem_cons.mp hm with hm | hm
    · exact absurd hm (by decide)
    · exact hnl hm
  · exact absurd (List.mem_singleton.mp hm) (by decide)

theorem pairLine_no_nl {kv : List Char × List Char} (h : cleanPair kv = true) :
    ('\n') ∉ pairLine kv := by
  obtain ⟨hkc, hvc, _⟩ := cleanPair_parts h
  have h1 := (cleanName_parts (cleanKey_parts hkc).2.1).2.2
  have h2 := (cleanName_parts hvc).2.2
  intro hm
  rw [pairLine] at hm
  rcases List.mem_append.mp hm with hm | hm
  · exact h1 hm
  · simp only [List.mem_cons] at hm
    rcases hm with hm | hm | hm | hm
    · exact absurd hm (by decide)
    · exact absurd hm (by decide)
    · exact absurd hm (by decide)
    · exact h2 hm

theorem splitLines_pairBlock (es : Sect) (tail : List Char)
    (h : ∀ kv ∈ es, cleanPair kv = true) :
    splitLines ((es.map writePair).flatten ++ '\n' :: tail) =
      es.map pairLine ++ [] :: splitLines tail := by
  induction es with
  | nil => simp [splitLines]
  | cons kv rest ih =>
    have hkv : cleanPair kv = true := h kv (List.mem_cons_self kv rest)
    have e1 : ((kv :: rest).map writePair).flatten ++ '\n' :: tail =
        pairLine kv ++ '\n' :: ((rest.map writePair).flatten ++ '\n' :: tail) := by
      simp [writePair, List.append_assoc]
    rw [e1, splitLines_append_newline (pairLine_no_nl hkv),
      ih (fun q hq => h q (List.mem_cons_of_mem kv hq))]
    rfl

theorem splitLines_write (st : Store) (h : cleanStore st = true) :
    splitLines (write st) = blockLines st := by
  induction st with
  | nil => rfl
  | cons se rest ih =>
    have hse := cleanStore_parts h se (List.mem_cons_self se rest)
    have hrest : cleanStore rest = true := by
      simp only [cleanStore, List.all_cons, Bool.and_eq_true] at h ⊢
      exact h.2
    have e1 : write (se :: rest) =
        headerLine se.1 ++ '\n' :: ((se.2.map writePair).flatten ++ '\n' :: write rest) := by
      simp [write, writeSectionBlock, List.append_assoc]
    rw [e1, splitLines_append_newline (headerLine_no_nl hse.1),
      splitLines_pairBlock se.2 (write rest) hse.2, ih hrest]
    simp [blockLines]

end SplitLinesLemmas

section StoreFoldLemmas

theorem parseLines_append (ps : ParseState) (ls1 ls2 : List (List Char)) :
    parseLines ps (ls1 ++ ls2) = parseLines (parseLines ps ls1) ls2 :=
  List.foldl_append parseLine ps ls1 ls2

theorem parseLines_pairs (sec : List Char) (store : Store) (es : Sect)
    (h : ∀ kv ∈ es, cleanPair kv = true) :
    parseLines { cur := some sec, store := store } (es.map pairLine) =
      { cur := some sec,
        store := es.foldl (fun acc kv => set_value sec kv.1 kv.2 acc) store } := by
  induction es generalizing store with
  | nil => rfl
  | cons kv rest ih =>
    have h1 := h kv (List.mem_cons_self kv rest)
    have h2 : ∀ q ∈ rest, cleanPair q = true := fun q hq =>
      h q (List.mem_cons_of_mem kv hq)
    simp only [List.map_cons, parseLines, List.foldl_cons]
    rw [parseLine_pair store kv h1]
    exact ih (set_value sec kv.1 kv.2 store) h2

theorem mapFind_set_section_ne {s sec : List Char} {st : Store} (h : s ≠ sec) :
    mapFind s (set_section sec st) = mapFind s st := by
  rw [set_section]
  by_cases hc : mapContains sec st = true
  · rw [if_pos hc]
  · rw [if_neg hc]
    exact mapFind_mapInsert_ne [] st h

theorem set_section_of_find_none {sec : List Char} {st : Store}
    (h : mapFind sec st = none) : set_section sec st = mapInsert sec [] st := by
  rw [set_section, if_neg]
  rw [mapContains_eq_isSome, h]
  simp

theorem set_section_of_find_some {sec : List Char} {st : Store} {es : Sect}
    (h : mapFind sec st = some es) : set_section sec st = st := by
  rw [set_section, if_pos]
  rw [mapContains_eq_isSome, h]
  rfl

theorem mapFind_foldl_set_value_self {sec : List Char} :
    ∀ (es : Sect) (acc : Store) (es0 : Sect), mapFind sec acc = some es0 →
      mapFind sec (es.foldl (fun a kv => set_value sec kv.1 kv.2 a) acc) =
        some (es.foldl (fun m kv => mapInsert kv.1 kv.2 m) es0) := by
  intro es
  induction es with
  | nil =>
    intro acc es0 h
    exact h
  | cons kv rest ih =>
    intro acc es0 h
    simp only [List.foldl_cons]
    apply ih
    rw [set_value, mapFind_mapInsert_self, h]
    rfl

theorem mapFind_foldl_set_value_ne {s sec : List Char} (h : s ≠ sec) :
    ∀ (es : Sect) (acc : Store),
      mapFind s (es.foldl (fun a kv => set_value sec kv.1 kv.2 a) acc) =
        mapFind s acc := by
  intro es
  induction es with
  | nil => intro acc; rfl
  | cons kv rest ih =>
    intro acc
    simp only [List.foldl_cons]
    rw [ih, set_value, mapFind_mapInsert_ne _ _ h]

theorem mapFind_mem {α : Type} {k : List Char} {m : List (List Char × α)} {v : α}
    (h : mapFind k m = some v) : (k, v) ∈ m := by
  induction m with
  | nil => exact Option.noConfusion h
  | cons p rest ih =>
    simp only [mapFind] at h
    by_cases h1 : p.1 = k
    · rw [if_pos h1] at h
      have hv : v = p.2 := (Option.some.inj h).symm
      have hp : (k, v) = p := by
        rw [hv, ← h1]
      rw [hp]
      exact List.mem_cons_self p rest
    · rw [if_neg h1] at h
      exact List.mem_cons_of_mem p (ih h)

theorem mapFind_foldl_mapInsert :
    ∀ (es : Sect) (m : Sect) (k : List Char),
      es.Pairwise (fun a b => a.1 ≠ b.1) →
      mapFind k (es.foldl (fun m kv => mapInsert kv.1 kv.2 m) m) =
        match mapFind k es with
        | some v => some v
        | none => mapFind k m := by
  intro es
  induction es with
  | nil =>
    intro m k _
    rfl
  | cons kv rest ih =>
    intro m k hpw
    rcases List.pairwise_cons.mp hpw with ⟨hne, hrest⟩
    simp only [List.foldl_cons]
    rw [ih _ _ hrest]
    by_cases h1 : kv.1 = k
    · have hnone : mapFind k rest = none :=
        mapFind_eq_none_of_forall (fun q hq => fun he => hne q hq (by rw [h1, he]))
      rw [hnone]
      simp only [mapFind]
      rw [if_pos h1, ← h1, mapFind_mapInsert_self]
    · simp only [mapFind]
      rw [if_neg h1]
      cases hr : mapFind k rest with
      | none => rw [mapFind_mapInsert_ne _ _ (fun he => h1 he.symm)]
      | some v => rfl

theorem mapFind_insertAll {es : Sect} (h : es.Pairwise (fun a b => a.1 ≠ b.1))
    (k : List Char) : mapFind k (insertAll es) = mapFind k es := by
  rw [insertAll, mapFind_foldl_mapInsert es [] k h]
  cases hr : mapFind k es with
  | none => rfl
  | some v => rfl

end StoreFoldLemmas

section ParseWriteLemmas

theorem mapFind_parseLines_blockLines :
    ∀ (st : Store) (c : Option (List Char)) (store0 : Store),
      cleanStore st = true →
      st.Pairwise (fun a b => a.1 ≠ b.1) →
      (∀ se ∈ st, mapFind se.1 store0 = none) →
      ∀ s, mapFind s ((parseLines { cur := c, store := store0 } (blockLines st)).store) =
        match mapFind s st with
        | some es => some (insertAll es)
        | none => mapFind s store0 := by
  intro st
  induction st with
  | nil =>
    intro c store0 _ _ _ s
    rfl
  | cons se rest ih =>
    intro c store0 hclean hpw hfresh s
    obtain ⟨sec, es⟩ := se
    have hse := cleanStore_parts hclean (sec, es) (List.mem_cons_self _ rest)
    have hrestclean : cleanStore rest = true := by
      simp only [cleanStore, List.all_cons, Bool.and_eq_true] at hclean ⊢
      exact hclean.2
    rcases List.pairwise_cons.mp hpw with ⟨hne, hrestpw⟩
    have hfresh0 : mapFind sec store0 = none := hfresh (sec, es) (List.mem_cons_self _ rest)
    have hbl : blockLines ((sec, es) :: rest) =
        (headerLine sec :: (es.map pairLine ++ [([] : List Char)])) ++ blockLines rest := by
      simp [blockLines]
    rw [hbl, parseLines_append]
    have hstep : parseLines { cur := c, store := store0 }
        (headerLine sec :: (es.map pairLine ++ [([] : List Char)])) =
        { cur := some sec,
          store := es.foldl (fun acc kv => set_value sec kv.1 kv.2 acc)
            (set_section sec store0) } := by
      show List.foldl parseLine { cur := c, store := store0 }
        (headerLine sec :: (es.map pairLine ++ [([] : List Char)])) = _
      rw [List.foldl_cons, parseLine_header _ hse.1]
      rw [show (es.map pairLine ++ [([] : List Char)]) =
        (es.map pairLine) ++ [([] : List Char)] from rfl]
      rw [← parseLines, parseLines_append, parseLines_pairs sec _ es hse.2]
      rfl
    rw [hstep]
    set F : Store := es.foldl (fun acc kv => set_value sec kv.1 kv.2 acc)
      (set_section sec store0) with hF
    have hrestfresh : ∀ q ∈ rest, mapFind q.1 F = none := by
      intro q hq
      have hq1 : q.1 ≠ sec := fun he => (hne q hq) he.symm
      rw [hF, mapFind_foldl_set_value_ne hq1, mapFind_set_section_ne hq1]
      exact hfresh q (List.mem_cons_of_mem _ hq)
    rw [ih (some sec) F hrestclean hrestpw hrestfresh s]
    by_cases hs : sec = s
    · subst hs
      have hrestnone : mapFind sec rest = none :=
        mapFind_eq_none_of_forall (fun q hq => fun he => hne q hq he.symm)
      rw [hrestnone]
      have hsecF : mapFind sec F = some (insertAll es) := by
        rw [hF, insertAll]
        apply mapFind_foldl_set_value_self
        rw [set_section_of_find_none hfresh0, mapFind_mapInsert_self]
      rw [hsecF]
      have hm : mapFind sec ((sec, es) :: rest) = some es := by
        have he : mapFind sec ((sec, es) :: rest) =
            if sec = sec then some es else mapFind sec rest := rfl
        rw [he, if_pos rfl]
      rw [hm]
    · have hcons : mapFind s ((sec, es) :: rest) = mapFind s rest := by
        have he : mapFind s ((sec, es) :: rest) =
            if sec = s then some es else mapFind s rest := rfl
        rw [he, if_neg hs]
      rw [hcons]
      cases hr : mapFind s rest with
      | some es2 => rfl
      | none =>
        rw [hF, mapFind_foldl_set_value_ne (fun he => hs he.symm),
          mapFind_set_section_ne (fun he => hs he.symm)]

theorem mapFind_parseStore_write (st : Store) (hclean : cleanStore st = true)
    (hpw : st.Pairwise (fun a b => a.1 ≠ b.1)) (s : List Char) :
    mapFind s (parseStore (write st) []) =
      match mapFind s st with
      | some es => some (insertAll es)
      | none => none := by
  rw [parseStore, splitLines_write st hclean,
    mapFind_parseLines_blockLines st none [] hclean hpw (fun se _ => rfl) s]
  cases hr : mapFind s st with
  | none => rfl
  | some es => rfl

end ParseWriteLemmas

section BuiltLemmas

theorem Built_invariants {st : Store} (h : Built st) :
    SortedMap st ∧ ∀ se ∈ st, SortedMap se.2 ∧ se.2 ≠ [] := by
  induction h with
  | nil => exact ⟨List.Pairwise.nil, fun se hse => absurd hse (List.not_mem_nil se)⟩
  | step sec k v st hb ih =>
    refine ⟨mapInsert_sorted ih.1, ?_⟩
    intro se hse
    rcases mem_mapInsert hse with hse | hse
    · subst hse
      refine ⟨?_, mapInsert_ne_nil _ _ _⟩
      show SortedMap (mapInsert k v ((mapFind sec st).getD []))
      cases hfind : mapFind sec st with
      | none => exact mapInsert_sorted List.Pairwise.nil
      | some es0 => exact mapInsert_sorted (ih.2 (sec, es0) (mapFind_mem hfind)).1
    · exact ih.2 se hse

theorem nodupKeys_pairwise {α : Type} {m : List (List Char × α)}
    (h : nodupKeys m = true) : m.Pairwise (fun a b => a.1 ≠ b.1) := by
  induction m with
  | nil => exact List.Pairwise.nil
  | cons p rest ih =>
    simp only [nodupKeys, Bool.and_eq_true, List.all_eq_true] at h
    refine List.pairwise_cons.mpr ⟨?_, ih h.2⟩
    intro q hq he
    have hb := h.1 q hq
    rw [Bool.not_eq_true', decide_eq_false_iff_not] at hb
    exact hb he.symm

theorem storeWF_parts {st : Store} (h : storeWF st = true) :
    st.Pairwise (fun a b => a.1 ≠ b.1) ∧
      ∀ se ∈ st, se.2.Pairwise (fun a b => a.1 ≠ b.1) := by
  simp only [storeWF, Bool.and_eq_true, List.all_eq_true] at h
  exact ⟨nodupKeys_pairwise h.1, fun se hse => nodupKeys_pairwise (h.2 se hse)⟩

end BuiltLemmas

section RemoveLemmas

theorem remove_value_fst (sec k : List Char) (st : Store) :
    (remove_value sec k st).1 =
      match mapFind sec st with
      | some es => mapContains k es
      | none => false := by
  induction st with
  | nil => rfl
  | cons p rest ih =>
    simp only [remove_value, mapFind]
    by_cases h : p.1 = sec
    · rw [if_pos h, if_pos h]
    · rw [if_neg h, if_neg h]
      exact ih

theorem remove_value_snd_eq {sec k : List Char} {st : Store}
    (h : (remove_value sec k st).1 = false) : (remove_value sec k st).2 = st := by
  induction st with
  | nil => rfl
  | cons p rest ih =>
    simp only [remove_value] at h ⊢
    by_cases hp : p.1 = sec
    · rw [if_pos hp] at h ⊢
      have hfind : mapFind k p.2 = none := by
        have : (mapFind k p.2).isSome = false := h
        exact Option.not_isSome_iff_eq_none.mp (by rw [this]; exact Bool.false_ne_true)
      rw [mapErase_of_find_none hfind]
    · rw [if_neg hp] at h ⊢
      rw [ih h]

theorem remove_value_snd_pos {sec k : List Char} {p : List Char × Sect} {rest : Store}
    (hp : p.1 = sec) :
    (remove_value sec k (p :: rest)).2 = (p.1, mapErase k p.2) :: rest := by
  simp only [remove_value]
  rw [if_pos hp]

theorem remove_value_snd_neg {sec k : List Char} {p : List Char × Sect} {rest : Store}
    (hp : ¬ p.1 = sec) :
    (remove_value sec k (p :: rest)).2 = p :: (remove_value sec k rest).2 := by
  simp only [remove_value]
  rw [if_neg hp]

theorem get_value_remove_value_self (sec k : List Char) (st : Store)
    (hwf : ∀ se ∈ st, se.2.Pairwise (fun a b => a.1 ≠ b.1)) :
    get_value sec k (remove_value sec k st).2 = none := by
  induction st with
  | nil => rfl
  | cons p rest ih =>
    by_cases hp : p.1 = sec
    · rw [remove_value_snd_pos hp]
      have he : mapFind sec ((p.1, mapErase k p.2) :: rest) = some (mapErase k p.2) := by
        have h0 : mapFind sec ((p.1, mapErase k p.2) :: rest) =
            if p.1 = sec then some (mapErase k p.2) else mapFind sec rest := rfl
        rw [h0, if_pos hp]
      rw [get_value, he]
      exact mapFind_mapErase_self (hwf p (List.mem_cons_self p rest))
    · rw [remove_value_snd_neg hp]
      have he : mapFind sec (p :: (remove_value sec k rest).2) =
          mapFind sec (remove_value sec k rest).2 := by
        have h0 : mapFind sec (p :: (remove_value sec k rest).2) =
            if p.1 = sec then some p.2 else mapFind sec (remove_value sec k rest).2 := rfl
        rw [h0, if_neg hp]
      rw [get_value, he]
      exact ih (fun se hse => hwf se (List.mem_cons_of_mem p hse))

theorem get_value_remove_value_other (sec k s q : List Char) (st : Store)
    (h : s ≠ sec ∨ q ≠ k) :
    get_value s q (remove_value sec k st).2 = get_value s q st := by
  induction st with
  | nil => rfl
  | cons p rest ih =>
    by_cases hp : p.1 = sec
    · rw [remove_value_snd_pos hp]
      by_cases hs : p.1 = s
      · have hq : q ≠ k := by
          rcases h with h | h
          · exact absurd (hp.symm.trans hs).symm h
          · exact h
        have he1 : mapFind s ((p.1, mapErase k p.2) :: rest) = some (mapErase k p.2) := by
          have h0 : mapFind s ((p.1, mapErase k p.2) :: rest) =
              if p.1 = s then some (mapErase k p.2) else mapFind s rest := rfl
          rw [h0, if_pos hs]
        have he2 : mapFind s (p :: rest) = some p.2 := by
          have h0 : mapFind s (p :: rest) =
              if p.1 = s then some p.2 else mapFind s rest := rfl
          rw [h0, if_pos hs]
        rw [get_value, get_value, he1, he2]
        exact mapFind_mapErase_ne hq
      · have he1 : mapFind s ((p.1, mapErase k p.2) :: rest) = mapFind s rest := by
          have h0 : mapFind s ((p.1, mapErase k p.2) :: rest) =
              if p.1 = s then some (mapErase k p.2) else mapFind s rest := rfl
          rw [h0, if_neg hs]
        have he2 : mapFind s (p :: rest) = mapFind s rest := by
          have h0 : mapFind s (p :: rest) =
              if p.1 = s then some p.2 else mapFind s rest := rfl
          rw [h0, if_neg hs]
        rw [get_value, get_value, he1, he2]
    · rw [remove_value_snd_neg hp]
      by_cases hs : p.1 = s
      · have he1 : mapFind s (p :: (remove_value sec k rest).2) = some p.2 := by
          have h0 : mapFind s (p :: (remove_value sec k rest).2) =
              if p.1 = s then some p.2 else mapFind s (remove_value sec k rest).2 := rfl
          rw [h0, if_pos hs]
        have he2 : mapFind s (p :: rest) = some p.2 := by
          have h0 : mapFind s (p :: rest) =
              if p.1 = s then some p.2 else mapFind s rest := rfl
          rw [h0, if_pos hs]
        rw [get_value, get_value, he1, he2]
      · have he1 : mapFind s (p :: (remove_value sec k rest).2) =
            mapFind s (remove_value sec k rest).2 := by
          have h0 : mapFind s (p :: (remove_value sec k rest).2) =
              if p.1 = s then some p.2 else mapFind s (remove_value sec k rest).2 := rfl
          rw [h0, if_neg hs]
        have he2 : mapFind s (p :: rest) = mapFind s rest := by
          have h0 : mapFind s (p :: rest) =
              if p.1 = s then some p.2 else mapFind s rest := rfl
          rw [h0, if_neg hs]
        rw [get_value, get_value, he1, he2]
        exact ih

end RemoveLemmas

section ExtractLemmas

theorem consumeAll_some (x : Int) (y : List Char) :
    consumeAll (some (x, y)) = if y = [] then some x else none := rfl

theorem extractDigits_case (l : List Char) (neg : Bool) :
    consumeAll (extractDigits l neg) =
      if l ≠ [] ∧ l.all Char.isDigit = true then
        some (if neg then -(natOfDigits l : Int) else (natOfDigits l : Int))
      else none := by
  simp only [extractDigits]
  by_cases hd : l.takeWhile Char.isDigit = []
  · rw [if_pos hd]
    have hcond : ¬(l ≠ [] ∧ l.all Char.isDigit = true) := by
      intro hc
      exact hc.1 ((List.takeWhile_eq_self_iff.mpr (List.all_eq_true.mp hc.2)).symm.trans hd)
    rw [if_neg hcond]
    rfl
  · rw [if_neg hd, consumeAll_some]
    by_cases hrest : l.dropWhile Char.isDigit = []
    · rw [if_pos hrest]
      have hall : ∀ x ∈ l, Char.isDigit x = true := List.dropWhile_eq_nil_iff.mp hrest
      have htake : l.takeWhile Char.isDigit = l := List.takeWhile_eq_self_iff.mpr hall
      have hne : l ≠ [] := by
        intro he
        rw [he] at hd
        exact hd rfl
      have hcpos : l ≠ [] ∧ l.all Char.isDigit = true := ⟨hne, List.all_eq_true.mpr hall⟩
      rw [if_pos hcpos, htake]
    · rw [if_neg hrest,
        if_neg (fun hc => hrest (List.dropWhile_eq_nil_iff.mpr (List.all_eq_true.mp hc.2)))]

theorem extract_eq_fullInt (s : List Char) :
    consumeAll (extractInt s) = fullInt (s.dropWhile streamWsp) := by
  simp only [extractInt]
  cases ht : s.dropWhile streamWsp with
  | nil => rfl
  | cons c r =>
    simp only [fullInt]
    by_cases h1 : c = '-'
    · rw [if_pos h1, if_pos h1, extractDigits_case]
      by_cases hc : r ≠ [] ∧ r.all Char.isDigit = true
      · rw [if_pos hc, if_pos hc]
        rfl
      · rw [if_neg hc, if_neg hc]
    · rw [if_neg h1, if_neg h1]
      by_cases h2 : c = '+'
      · rw [if_pos h2, if_pos h2, extractDigits_case]
        by_cases hc : r ≠ [] ∧ r.all Char.isDigit = true
        · rw [if_pos hc, if_pos hc]
          rfl
        · rw [if_neg hc, if_neg hc]
      · rw [if_neg h2, if_neg h2, extractDigits_case]
        by_cases hall : (c :: r).all Char.isDigit = true
        · have hcpos : c :: r ≠ [] ∧ (c :: r).all Char.isDigit = true :=
            ⟨List.cons_ne_nil c r, hall⟩
          rw [if_pos hcpos, if_pos hall]
          rfl
        · rw [if_neg (fun hc => hall hc.2), if_neg hall]

end ExtractLemmas

/-- C1 (counterexample): the round-trip claim fails as stated.  The store
built by the single call `set_value "s" "k" " v"` (no empty sections) does
not re-parse to the same mapping: the serializer emits `k =  v` and the
parser trims the value back to `"v"`, so the stored `" v"` is lost. -/
theorem C1_set_value_round_trip_counterexample :
    Built (set_value ['s'] ['k'] [' ', 'v'] []) ∧
      get_value ['s'] ['k']
          (parseStore (write (set_value ['s'] ['k'] [' ', 'v'] [])) []) ≠
        get_value ['s'] ['k'] (set_value ['s'] ['k'] [' ', 'v'] []) :=
  ⟨Built.step ['s'] ['k'] [' ', 'v'] [] Built.nil, by decide⟩

/-- C1 (amended): for every store populated only by `set_value` calls whose
section names, keys and values are round-trippable (no leading or trailing
whitespace, no newline; keys nonempty, `'='`-free, not starting `';'`, `'#'`,
and no key-value line that looks like a `[section]` header), serializing via
`write` and re-parsing into an empty store yields an identical
section-to-key-to-value mapping: the same sections exist and every
section/key lookup returns the same value. -/
theorem C1_set_value_round_trip (st : Store) (hb : Built st)
    (hclean : cleanStore st = true) :
    (∀ s, (mapFind s (parseStore (write st) [])).isSome = (mapFind s st).isSome) ∧
      (∀ s k, get_value s k (parseStore (write st) []) = get_value s k st) := by
  have hinv := Built_invariants hb
  have hpw : st.Pairwise (fun a b => a.1 ≠ b.1) := hinv.1.nodup
  constructor
  · intro s
    rw [mapFind_parseStore_write st hclean hpw s]
    cases hr : mapFind s st with
    | none => rfl
    | some es => rfl
  · intro s k
    rw [get_value, get_value, mapFind_parseStore_write st hclean hpw s]
    cases hr : mapFind s st with
    | none => rfl
    | some es =>
      have hnd : es.Pairwise (fun a b => a.1 ≠ b.1) :=
        ((hinv.2 (s, es) (mapFind_mem hr)).1).nodup
      exact mapFind_insertAll hnd k

/-- C1 (witness): the amended round trip evaluated at the concrete store
built by `set_value "s" "k" "v"`. -/
theorem C1_set_value_round_trip_witness :
    cleanStore (set_value ['s'] ['k'] ['v'] []) = true ∧
      get_value ['s'] ['k'] (parseStore (write (set_value ['s'] ['k'] ['v'] [])) []) =
        get_value ['s'] ['k'] (set_value ['s'] ['k'] ['v'] []) :=
  ⟨by decide,
    (C1_set_value_round_trip (set_value ['s'] ['k'] ['v'] [])
        (Built.step ['s'] ['k'] ['v'] [] Built.nil) (by decide)).2 ['s'] ['k']⟩

/-- C2 (counterexample): the typed-conversion claim fails as stated.  For the
stored value `"1 "` (trailing space), the trimmed string `"1"` is entirely
consumed by the conversion with no error, so the claim demands `some 1`; the
code's `iss.eof()` check fails on the unread trailing space and
`get_value<int>` returns no value. -/
theorem C2_int_conversion_counterexample :
    get_value_int ['S'] ['K'] (set_value ['S'] ['K'] ['1', ' '] []) = none ∧
      (get_value ['S'] ['K'] (set_value ['S'] ['K'] ['1', ' '] [])).bind
          (fun s => fullInt (trim s)) = some 1 := by
  decide

/-- C2 (amended): `get_value<int>` returns the converted value exactly when
the stored string, after dropping only its leading stream whitespace, is
entirely consumed by the conversion with no parse error (trailing whitespace
makes the conversion fail); in every other case, including absence of the
section or key, it returns no value.  Modelled at the representative
stream-extractable type `int`, with the target as an unbounded integer. -/
theorem C2_int_conversion (st : Store) (sec k : List Char) :
    get_value_int sec k st =
      (get_value sec k st).bind (fun s => fullInt (s.dropWhile streamWsp)) := by
  rw [get_value_int]
  cases hg : get_value sec k st with
  | none => rfl
  | some s => exact extract_eq_fullInt s

/-- C3: `get_value<bool>` returns `true` exactly when the stored value,
lowercased and trimmed, equals `"true"` or `"1"`; returns `false` exactly
when it equals `"false"` or `"0"`; and returns no value for any other text
or when the section or key is absent. -/
theorem C3_bool_parse (st : Store) (sec k : List Char) :
    (get_value_bool sec k st = some true ↔
      ∃ s, get_value sec k st = some s ∧
        (lowTrim s = trueChars ∨ lowTrim s = oneChars)) ∧
    (get_value_bool sec k st = some false ↔
      ∃ s, get_value sec k st = some s ∧
        (lowTrim s = falseChars ∨ lowTrim s = zeroChars)) ∧
    (∀ s, get_value sec k st = some s →
      lowTrim s ≠ trueChars → lowTrim s ≠ oneChars →
      lowTrim s ≠ falseChars → lowTrim s ≠ zeroChars →
      get_value_bool sec k st = none) ∧
    (get_value sec k st = none → get_value_bool sec k st = none) := by
  cases hg : get_value sec k st with
  | none =>
    have hb : get_value_bool sec k st = none := by
      rw [get_value_bool, hg]
    refine ⟨?_, ?_, ?_, ?_⟩
    · rw [hb]
      constructor
      · intro h
        exact Option.noConfusion h
      · rintro ⟨s1, hs1, _⟩
        exact Option.noConfusion hs1
    · rw [hb]
      constructor
      · intro h
        exact Option.noConfusion h
      · rintro ⟨s1, hs1, _⟩
        exact Option.noConfusion hs1
    · intro s1 hs1 _ _ _ _
      exact Option.noConfusion hs1
    · intro _
      exact hb
  | some s0 =>
    have hb : get_value_bool sec k st =
        (if lowTrim s0 = trueChars ∨ lowTrim s0 = oneChars then some true
         else if lowTrim s0 = falseChars ∨ lowTrim s0 = zeroChars then some false
         else none) := by
      rw [get_value_bool, hg]
    by_cases h1 : lowTrim s0 = trueChars ∨ lowTrim s0 = oneChars
    · have hbt : get_value_bool sec k st = some true := by
        rw [hb, if_pos h1]
      refine ⟨⟨fun _ => ⟨s0, rfl, h1⟩, fun _ => hbt⟩, ?_, ?_, ?_⟩
      · constructor
        · intro h
          rw [hbt] at h
          exact Bool.noConfusion (Option.some.inj h)
        · rintro ⟨s1, hs1, h2⟩
          have he : s1 = s0 := (Option.some.inj hs1).symm
          subst he
          exfalso
          rcases h1 with h1 | h1 <;> rcases h2 with h2 | h2 <;> rw [h1] at h2 <;>
            exact absurd h2 (by decide)
      · intro s1 hs1 hn1 hn2 _ _
        have he : s1 = s0 := (Option.some.inj hs1).symm
        subst he
        exfalso
        rcases h1 with h1 | h1
        · exact hn1 h1
        · exact hn2 h1
      · intro h
        exact Option.noConfusion h
    · by_cases h2 : lowTrim s0 = falseChars ∨ lowTrim s0 = zeroChars
      · have hbf : get_value_bool sec k st = some false := by
          rw [hb, if_neg h1, if_pos h2]
        refine ⟨?_, ⟨fun _ => ⟨s0, rfl, h2⟩, fun _ => hbf⟩, ?_, ?_⟩
        · constructor
          · intro h
            rw [hbf] at h
            exact Bool.noConfusion (Option.some.inj h)
          · rintro ⟨s1, hs1, h3⟩
            have he : s1 = s0 := (Option.some.inj hs1).symm
            subst he
            exact absurd h3 h1
        · intro s1 hs1 _ _ hn3 hn4
          have he : s1 = s0 := (Option.some.inj hs1).symm
          subst he
          exfalso
          rcases h2 with h2 | h2
          · exact hn3 h2
          · exact hn4 h2
        · intro h
          exact Option.noConfusion h
      · have hbn : get_value_bool sec k st = none := by
          rw [hb, if_neg h1, if_neg h2]
        refine ⟨?_, ?_, fun _ _ _ _ _ _ => hbn, ?_⟩
        · rw [hbn]
          constructor
          · intro h
            exact Option.noConfusion h
          · rintro ⟨s1, hs1, h3⟩
            have he : s1 = s0 := (Option.some.inj hs1).symm
            subst he
            exact absurd h3 h1
        · rw [hbn]
          constructor
          · intro h
            exact Option.noConfusion h
          · rintro ⟨s1, hs1, h3⟩
            have he : s1 = s0 := (Option.some.inj hs1).symm
            subst he
            exact absurd h3 h2
        · intro h
          exact Option.noConfusion h

/-- C3 (witness): `"True "` parses as `true` through the boolean accessor at
a concrete store. -/
theorem C3_bool_parse_witness :
    get_value_bool ['S'] ['K']
        (set_value ['S'] ['K'] ['T', 'r', 'u', 'e', ' '] []) = some true :=
  (C3_bool_parse (set_value ['S'] ['K'] ['T', 'r', 'u', 'e', ' '] [])
      ['S'] ['K']).1.mpr ⟨['T', 'r', 'u', 'e', ' '], by decide, by decide⟩

/-- C4: on a trimmed line that is not empty, comment or header and contains
`'='`, the parser splits at the first `'='` into a trimmed key and trimmed
value; the pair is recorded only when a section header was seen earlier
(otherwise it is silently discarded), an empty trimmed key is silently
discarded, and a recorded non-empty key overwrites any prior value for that
key in the current section. -/
theorem C4_keyvalue_line (line : List Char) (c : Option (List Char)) (store : Store)
    (pre post : List Char)
    (hsplit : trim line = pre ++ '=' :: post) (hpre : ('=') ∉ pre)
    (hc1 : (trim line).head? ≠ some ';') (hc2 : (trim line).head? ≠ some '#')
    (hhdr : ¬((trim line).head? = some '[' ∧ (trim line).getLast? = some ']')) :
    (parseLine { cur := c, store := store } line =
      match c with
      | none => { cur := c, store := store }
      | some sec =>
        if trim pre = [] then { cur := c, store := store }
        else { cur := c, store := set_value sec (trim pre) (trim post) store }) ∧
    (∀ (sec key value : List Char) (st0 : Store), key ≠ [] →
      get_value sec key (set_value sec key value st0) = some value) := by
  constructor
  · have hne : trim line ≠ [] := by
      rw [hsplit]
      simp
    have hmem : ('=') ∈ trim line := by
      rw [hsplit]
      exact List.mem_append.mpr (Or.inr (List.mem_cons_self _ _))
    have hpall : ∀ x ∈ pre, (x != '=') = true := fun x hx =>
      bne_iff_ne.mpr (fun he => hpre (he ▸ hx))
    have htake : (trim line).takeWhile (fun c => c != '=') = pre := by
      rw [hsplit, takeWhile_append_all hpall]
      have h0 : List.takeWhile (fun c => c != '=') ('=' :: post) = [] := rfl
      rw [h0, List.append_nil]
    have hdrop : (trim line).dropWhile (fun c => c != '=') = '=' :: post := by
      rw [hsplit, dropWhile_append_all hpall]
      rfl
    simp only [parseLine]
    rw [if_neg hne, if_neg (not_or.mpr ⟨hc1, hc2⟩), if_neg hhdr, if_pos hmem,
      htake, hdrop]
    have hdrop1 : ('=' :: post).drop 1 = post := rfl
    rw [hdrop1]
    cases c with
    | none => rfl
    | some sec => exact recordPair_some sec store (trim pre) (trim post)
  · intro sec key value st0 _
    rw [get_value, set_value, mapFind_mapInsert_self]
    exact mapFind_mapInsert_self key value _

/-- C4 (witness): the key-value rule evaluated on the concrete line
`"k = v"` with current section `"S"`. -/
theorem C4_keyvalue_line_witness :
    (trim ['k', ' ', '=', ' ', 'v'] = ['k', ' '] ++ '=' :: [' ', 'v']) ∧
      parseLine { cur := some ['S'], store := [] } ['k', ' ', '=', ' ', 'v'] =
        (if trim ['k', ' '] = [] then { cur := some ['S'], store := ([] : Store) }
         else { cur := some ['S'],
                store := set_value ['S'] (trim ['k', ' ']) (trim [' ', 'v']) [] }) :=
  ⟨by decide,
    (C4_keyvalue_line ['k', ' ', '=', ' ', 'v'] (some ['S']) [] ['k', ' '] [' ', 'v']
        (by decide) (by decide) (by decide) (by decide) (by decide)).1⟩

/-- C5: the parser never fails on content: reading an in-memory text without
an I/O failure always returns success, and a trimmed line with no `'='` that
is not a header, comment or empty line is silently ignored, leaving the
parser state (and hence the store) unchanged. -/
theorem C5_malformed_tolerance :
    (∀ (text : List Char) (st : Store), parseE text st = Except.ok (parseStore text st)) ∧
    (∀ (ps : ParseState) (line : List Char),
      trim line ≠ [] →
      (trim line).head? ≠ some ';' → (trim line).head? ≠ some '#' →
      ¬((trim line).head? = some '[' ∧ (trim line).getLast? = some ']') →
      ('=') ∉ trim line →
      parseLine ps line = ps) :=
  ⟨fun _ _ => rfl, fun ps line h1 h2 h3 h4 h5 => parseLine_skip ps h1 h2 h3 h4 h5⟩

/-- C5 (witness): the malformed line `"notakeyvalue"` is ignored by the
parser in a concrete state. -/
theorem C5_malformed_tolerance_witness :
    (trim ['n', 'o', 't', 'a', 'k', 'e', 'y', 'v', 'a', 'l', 'u', 'e'] ≠ [] ∧
      ('=') ∉ trim ['n', 'o', 't', 'a', 'k', 'e', 'y', 'v', 'a', 'l', 'u', 'e']) ∧
      parseLine { cur := some ['S'], store := [(['S'], [])] }
          ['n', 'o', 't', 'a', 'k', 'e', 'y', 'v', 'a', 'l', 'u', 'e'] =
        { cur := some ['S'], store := [(['S'], [])] } :=
  ⟨by decide,
    C5_malformed_tolerance.2 { cur := some ['S'], store := [(['S'], [])] }
      ['n', 'o', 't', 'a', 'k', 'e', 'y', 'v', 'a', 'l', 'u', 'e']
      (by decide) (by decide) (by decide) (by decide) (by decide)⟩

/-- C6: argument-less `write_file()` with no remembered path fails with the
distinct invalid-operation-state error `operation_not_permitted`, which is a
different error value from every I/O error, and the manager (hence its
mapping) is unchanged. -/
theorem C6_write_back_no_path (m : Manager) (h : m.filePath = [])
    (openFails : Bool) (errno : Nat) :
    write_file_noarg m openFails errno = (Except.error IniErr.opNotPermitted, m) ∧
      (∀ e : Nat, IniErr.opNotPermitted ≠ IniErr.ioError e) := by
  constructor
  · rw [write_file_noarg, if_pos h]
  · intro e hc
    exact IniErr.noConfusion hc

/-- C6 (witness): the no-path failure on a concrete populated manager. -/
theorem C6_write_back_no_path_witness :
    ({ store := [(['a'], [(['k'], ['v'])])], filePath := [] } : Manager).filePath = [] ∧
      write_file_noarg { store := [(['a'], [(['k'], ['v'])])], filePath := [] } true 5 =
        (Except.error IniErr.opNotPermitted,
          { store := [(['a'], [(['k'], ['v'])])], filePath := [] }) :=
  ⟨rfl, (C6_write_back_no_path { store := [(['a'], [(['k'], ['v'])])], filePath := [] }
      rfl true 5).1⟩

/-- C7: `set_section` creates an empty section when the name is absent and is
an exact no-op when it already exists; in both cases no lookup of any key in
any section changes; and a `[Section]` header line in the parser performs
exactly `set_section` on the computed name (so a repeated header never
clears existing keys). -/
theorem C7_set_section_idempotent (st : Store) (sec : List Char) :
    (mapContains sec st = true → set_section sec st = st) ∧
    (mapContains sec st = false → mapFind sec (set_section sec st) = some []) ∧
    (∀ s k, get_value s k (set_section sec st) = get_value s k st) ∧
    (∀ (ps : ParseState) (name : List Char), cleanName name = true →
      parseLine ps (headerLine name) =
        { cur := some name, store := set_section name ps.store }) := by
  refine ⟨?_, ?_, ?_, fun ps name h => parseLine_header ps h⟩
  · intro h
    rw [set_section, if_pos h]
  · intro h
    have hf : mapFind sec st = none := by
      cases hfind : mapFind sec st with
      | none => rfl
      | some es =>
        rw [mapContains_eq_isSome, hfind] at h
        exact Bool.noConfusion h
    rw [set_section_of_find_none hf, mapFind_mapInsert_self]
  · intro s k
    by_cases hc : mapContains sec st = true
    · rw [set_section, if_pos hc]
    · rw [set_section, if_neg hc]
      by_cases hs : s = sec
      · subst hs
        have hf : mapFind s st = none := by
          cases hfind : mapFind s st with
          | none => rfl
          | some es =>
            rw [mapContains_eq_isSome, hfind] at hc
            exact absurd rfl hc
        rw [get_value, get_value, mapFind_mapInsert_self, hf]
        rfl
      · rw [get_value, get_value, mapFind_mapInsert_ne _ _ hs]

/-- C7 (witness): `set_section` on an already-present section with keys is an
exact no-op at a concrete store. -/
theorem C7_set_section_idempotent_witness :
    set_section ['a'] [(['a'], [(['k'], ['v'])])] = [(['a'], [(['k'], ['v'])])] :=
  (C7_set_section_idempotent [(['a'], [(['k'], ['v'])])] ['a']).1 (by decide)

/-- C8: `remove_value` returns `true` exactly when the section exists and
contains the key; it removes only that key (the removed lookup becomes
`none`, all other lookups are unchanged) and leaves the store identical when
it returns `false`; `remove_section` returns `true` exactly when the section
existed and removes it with all of its keys, leaving other sections
unchanged. -/
theorem C8_removal (st : Store) (sec k : List Char) (hwf : storeWF st = true) :
    ((remove_value sec k st).1 = true ↔
      ∃ es, mapFind sec st = some es ∧ mapContains k es = true) ∧
    ((remove_value sec k st).1 = false → (remove_value sec k st).2 = st) ∧
    (get_value sec k (remove_value sec k st).2 = none) ∧
    (∀ s q, s ≠ sec ∨ q ≠ k →
      get_value s q (remove_value sec k st).2 = get_value s q st) ∧
    ((remove_section sec st).1 = true ↔ (mapFind sec st).isSome = true) ∧
    ((remove_section sec st).1 = false → (remove_section sec st).2 = st) ∧
    (∀ q, get_value sec q (remove_section sec st).2 = none) ∧
    (∀ s q, s ≠ sec → get_value s q (remove_section sec st).2 = get_value s q st) := by
  obtain ⟨hpw, hinner⟩ := storeWF_parts hwf
  refine ⟨?_, fun h => remove_value_snd_eq h,
    get_value_remove_value_self sec k st hinner,
    fun s q h => get_value_remove_value_other sec k s q st h, Iff.rfl, ?_, ?_, ?_⟩
  · rw [remove_value_fst]
    cases hf : mapFind sec st with
    | none =>
      constructor
      · intro h
        exact Bool.noConfusion h
      · rintro ⟨es, hes, _⟩
        exact Option.noConfusion hes
    | some es =>
      constructor
      · intro h
        exact ⟨es, rfl, h⟩
      · rintro ⟨es2, hes2, hc⟩
        have he : es2 = es := (Option.some.inj hes2).symm
        subst he
        exact hc
  · intro h
    have hf : mapFind sec st = none := by
      cases hfind : mapFind sec st with
      | none => rfl
      | some es =>
        rw [show (remove_section sec st).1 = (mapFind sec st).isSome from rfl, hfind] at h
        exact Bool.noConfusion h
    exact mapErase_of_find_none hf
  · intro q
    rw [get_value, show (remove_section sec st).2 = mapErase sec st from rfl,
      mapFind_mapErase_self hpw]
    rfl
  · intro s q hs
    rw [get_value, get_value, show (remove_section sec st).2 = mapErase sec st from rfl,
      mapFind_mapErase_ne hs]

/-- C8 (witness): removing a present key makes its lookup `none` at a
concrete store. -/
theorem C8_removal_witness :
    storeWF [(['a'], [(['k'], ['v'])])] = true ∧
      get_value ['a'] ['k']
        (remove_value ['a'] ['k'] [(['a'], [(['k'], ['v'])])]).2 = none :=
  ⟨by decide, (C8_removal [(['a'], [(['k'], ['v'])])] ['a'] ['k'] (by decide)).2.2.1⟩

/-- C9 (counterexample): the claim fails as stated at the empty path.  After
`load_file("")` fails to open, the store is cleared and the remembered path
is the empty string, so a subsequent argument-less `write_file()` DOES fail
with the no-path `operation_not_permitted` error, contradicting the claim
that it would target the remembered path. -/
theorem C9_load_file_counterexample :
    (load_file { store := [(['a'], [(['k'], ['v'])])], filePath := ['p'] }
        [] none 2).1.store = [] ∧
    (load_file { store := [(['a'], [(['k'], ['v'])])], filePath := ['p'] }
        [] none 2).1.filePath = [] ∧
    (write_file_noarg (load_file { store := [(['a'], [(['k'], ['v'])])], filePath := ['p'] }
        [] none 2).1 false 0).1 = Except.error IniErr.opNotPermitted :=
  ⟨rfl, rfl, rfl⟩

/-- C9 (amended): `load_file(path)` replaces the mapping with a fresh empty
one and records `path` before the open attempt, so on open failure the store
is left empty, the error is an I/O error, and — provided the given path is
nonempty — a subsequent argument-less `write_file()` targets that path
rather than failing with the no-path error. -/
theorem C9_load_file_failure (m : Manager) (path : List Char) (errno : Nat) :
    (load_file m path none errno).1.store = [] ∧
    (load_file m path none errno).1.filePath = path ∧
    (load_file m path none errno).2 = Except.error (IniErr.ioError errno) ∧
    (path ≠ [] → ∀ (openFails : Bool) (e : Nat),
      (write_file_noarg (load_file m path none errno).1 openFails e).1 ≠
        Except.error IniErr.opNotPermitted) := by
  refine ⟨rfl, rfl, rfl, ?_⟩
  intro hp openFails e
  show (write_file_noarg { store := [], filePath := path } openFails e).1 ≠ _
  simp only [write_file_noarg]
  rw [if_neg hp]
  by_cases ho : openFails = true
  · rw [if_pos ho]
    intro hc
    exact IniErr.noConfusion (Except.error.inj hc)
  · rw [if_neg ho]
    intro hc
    exact Except.noConfusion hc

/-- C9 (witness): after a failed load of the nonempty path `"p"`, the
write-back does not produce the no-path error. -/
theorem C9_load_file_failure_witness :
    ((['p'] : List Char) ≠ []) ∧
      (write_file_noarg (load_file { store := [], filePath := [] } ['p'] none 2).1
          true 7).1 ≠ Except.error IniErr.opNotPermitted :=
  ⟨by decide,
    (C9_load_file_failure { store := [], filePath := [] } ['p'] 2).2.2.2 (by decide) true 7⟩

/-- C10 (counterexample): the claim fails as stated.  The empty section
`"s"` has a clean name, yet in the store that also holds a section `" s"`
(whose name trims to `"s"`) with one pair, the write/parse round trip leaves
section `"s"` with one key instead of zero: the `[ s]` header re-parses as
`"s"` and its pair lands there. -/
theorem C10_empty_section_counterexample :
    cleanName ['s'] = true ∧
      mapFind ['s'] ([([' ', 's'], [(['k'], ['v'])]), (['s'], [])] : Store) = some [] ∧
      mapFind ['s'] (parseStore
        (write ([([' ', 's'], [(['k'], ['v'])]), (['s'], [])] : Store)) []) ≠ some [] := by
  decide

/-- C10 (amended): empty sections survive the write/parse round trip provided
every section name of the store trims to itself and is newline-free and every
pair is round-trippable (not only the empty section in question): the
serializer emits the bare `[name]` header and re-parsing recreates the
section with zero keys. -/
theorem C10_empty_section_round_trip (st : Store) (s : List Char)
    (hclean : cleanStore st = true) (hpw : st.Pairwise (fun a b => a.1 ≠ b.1))
    (hs : mapFind s st = some []) :
    mapFind s (parseStore (write st) []) = some [] := by
  rw [mapFind_parseStore_write st hclean hpw s, hs]
  rfl

/-- C10 (witness): the empty section `"e"` survives the round trip in a
concrete one-section store. -/
theorem C10_empty_section_round_trip_witness :
    (cleanStore [(['e'], [])] = true ∧
      mapFind ['e'] ([(['e'], [])] : Store) = some []) ∧
      mapFind ['e'] (parseStore (write ([(['e'], [])] : Store)) []) = some [] :=
  ⟨⟨by decide, by decide⟩,
    C10_empty_section_round_trip [(['e'], [])] ['e'] (by decide) (by simp) (by decide)⟩

end Ini
